import Mathlib

/-!
# Verification of the zeitschaltuhr temporal-iteration engine

Shallow embedding of `src/period.rs` and `src/zeitschaltuhr.rs`.

Modelling conventions:

* An instant (`chrono::DateTime<T>`) is an integer: nanoseconds since the Unix
  epoch of the underlying absolute (UTC) instant.  chrono's `DateTime`
  arithmetic (`+ Duration`, comparison, `timestamp()`) acts on this absolute
  instant; the attached time zone only changes the calendar rendering, which
  none of the embedded functions inspect.  In particular "elapsed real time"
  between two instants is their difference, regardless of daylight-saving
  transitions of the rendering zone.
* A span (`chrono::Duration`, i.e. `TimeDelta`) is an integer: its total
  length in nanoseconds.  chrono stores it as `secs: i64, nanos: i32` with
  `0 ≤ nanos < 10^9`, recovered below as floor quotient and remainder.
* The `as u32` casts of the Rust source are modelled explicitly as reduction
  modulo `2^32`; `u32::div_ceil` with divisor `0` is a Rust panic, modelled by
  returning `none` from the strategy.
* The clock (`TimeProvider::now`) is an explicit argument: a function from the
  index of the `next` call to the reading the provider returns at that call.
-/

def nsPerSec : Int := 1000000000

/-- chrono `TimeDelta::is_zero`. -/
def durIsZero (d : Int) : Bool := d == 0

/-- chrono `TimeDelta` `secs` field: the floor of the duration in seconds. -/
def durSecsField (d : Int) : Int := Int.ediv d nsPerSec

/-- chrono `TimeDelta` `nanos` field: the sub-second remainder, in `[0, 10^9)`. -/
def durNanosField (d : Int) : Int := Int.emod d nsPerSec

/-- chrono `TimeDelta::num_seconds`: whole seconds, truncated toward zero
(`if secs < 0 && nanos > 0 { secs + 1 } else { secs }`). -/
def durNumSeconds (d : Int) : Int :=
  if durSecsField d < 0 ∧ 0 < durNanosField d then durSecsField d + 1 else durSecsField d

/-- chrono `TimeDelta::num_nanoseconds`: the total in nanoseconds as `i64`,
`none` when the checked `i64` arithmetic overflows. -/
def durNumNanoseconds (d : Int) : Option Int :=
  if -(2 ^ 63) ≤ d ∧ d < 2 ^ 63 then some d else none

/-- chrono `Duration::seconds`. -/
def durationSeconds (s : Int) : Int := s * nsPerSec

/-- chrono `DateTime::timestamp`: whole (POSIX) seconds since the epoch, floor. -/
def timestamp (t : Int) : Int := Int.ediv t nsPerSec

/-- `Period` from src/period.rs.  The `timezone` field (rendering only) and the
boxed `time_provider` (modelled as the explicit clock argument of each call)
carry no data relevant to the embedded functions and are omitted. -/
structure Period where
  start : Int
  duration : Int
deriving DecidableEq

/-- `PeriodError` from src/period.rs. -/
inductive PeriodError where
  | negativeDurationError
  | zeroDurationError
deriving DecidableEq

/-- `Period::starting_at_with_time_provider` from src/period.rs. -/
def startingAtWithTimeProvider (start duration : Int) : Except PeriodError Period :=
  if durIsZero duration then .error .zeroDurationError
  else if durNumSeconds duration < 0 ∨ (durNumNanoseconds duration).getD 0 < 0 then
    .error .negativeDurationError
  else .ok { start := start, duration := duration }

/-- `Period::starting_at` from src/period.rs: delegates to
`starting_at_with_time_provider` with the real clock. -/
def startingAt (start duration : Int) : Except PeriodError Period :=
  startingAtWithTimeProvider start duration

/-- The two `IntervalStrategy` implementations of src/period.rs:
`FixedIntervalStrategy` and `NextAvailableIntervalStrategy`. -/
inductive IntervalStrategy where
  | fixedInterval
  | nextAvailableInterval
deriving DecidableEq

/-- `FixedIntervalStrategy::next_timestamp`: `timestamp + *duration`. -/
def fixedIntervalNextTimestamp (ts duration : Int) : Int := ts + duration

/-- A Rust `as u32` cast of an `i64` value: two's-complement truncation. -/
def u32Cast (v : Int) : Nat := (Int.emod v (2 ^ 32)).toNat

/-- Rust `u32::div_ceil` (caller must rule out the `b = 0` panic). -/
def u32DivCeil (a b : Nat) : Nat := a / b + (if a % b = 0 then 0 else 1)

/-- `NextAvailableIntervalStrategy::next_timestamp` from src/period.rs:

```
let full_durations_till_present =
  ((self.time_provider.now().timestamp() - current.timestamp()).max(0) as u32)
    .div_ceil(duration.num_seconds() as u32) as i64;
current + Duration::seconds(full_durations_till_present * duration.num_seconds())
```

`none` models the `u32::div_ceil` division-by-zero panic when
`duration.num_seconds() as u32 == 0`. -/
def nextAvailableNextTimestamp (now current duration : Int) : Option Int :=
  let durSecsU32 : Nat := u32Cast (durNumSeconds duration)
  if durSecsU32 = 0 then none
  else
    let diffU32 : Nat := u32Cast (max (timestamp now - timestamp current) 0)
    let fullDurationsTillPresent : Int := Int.ofNat (u32DivCeil diffU32 durSecsU32)
    some (current + durationSeconds (fullDurationsTillPresent * durNumSeconds duration))

/-- Dispatch of `IntervalStrategy::next_timestamp` over the two strategies. -/
def nextTimestamp (s : IntervalStrategy) (now current duration : Int) : Option Int :=
  match s with
  | .fixedInterval => some (fixedIntervalNextTimestamp current duration)
  | .nextAvailableInterval => nextAvailableNextTimestamp now current duration

/-- `PeriodIterator` from src/period.rs: the borrowed period (only its fields
matter here), the cursor, and the chosen strategy. -/
structure PeriodIterator where
  period : Period
  current : Option Int
  strategy : IntervalStrategy
deriving DecidableEq

/-- `PeriodIterator::new`: the cursor starts at `period.start`. -/
def PeriodIterator.new (p : Period) (s : IntervalStrategy) : PeriodIterator :=
  { period := p, current := some p.start, strategy := s }

/-- `PeriodIterator::new_fixed`. -/
def PeriodIterator.newFixed (p : Period) : PeriodIterator :=
  PeriodIterator.new p .fixedInterval

/-- `PeriodIterator::new_relative`. -/
def PeriodIterator.newRelative (p : Period) : PeriodIterator :=
  PeriodIterator.new p .nextAvailableInterval

/-- `Period::upcoming_fixed`. -/
def Period.upcomingFixed (p : Period) : PeriodIterator := PeriodIterator.newFixed p

/-- `Period::upcoming_relative`. -/
def Period.upcomingRelative (p : Period) : PeriodIterator := PeriodIterator.newRelative p

/-- `Iterator::next` for `PeriodIterator` (src/period.rs):

```
match self.current.clone() {
  Some(current) => {
    let next = self.next_date_strategy.next_timestamp(current, &self.period.duration);
    self.current = Some(next);
    Some(current)
  }
  None => None,
}
```

The outer `Option` models a panic inside `next_timestamp` (`none` = panic);
the inner `Option Int` is the Rust return value. -/
def PeriodIterator.next (it : PeriodIterator) (now : Int) :
    Option (Option Int × PeriodIterator) :=
  match it.current with
  | some current =>
    match nextTimestamp it.strategy now current it.period.duration with
    | some nxt => some (some current, { it with current := some nxt })
    | none => none
  | none => some (none, it)

/-- The iterator state after `n` calls to `next`; the `k`-th call receives the
clock reading `clock k`.  `none` propagates a panic. -/
def iterAfter (clock : Nat → Int) (it : PeriodIterator) : Nat → Option PeriodIterator
  | 0 => some it
  | n + 1 =>
    match iterAfter clock it n with
    | some s =>
      match s.next (clock n) with
      | some (_, s2) => some s2
      | none => none
    | none => none

/-- The value returned by the `(n+1)`-st call to `next` (index `n`): `none` if
some call up to there panics, otherwise `some` of the Rust `Option` value. -/
def yieldAt (clock : Nat → Int) (it : PeriodIterator) (n : Nat) : Option (Option Int) :=
  match iterAfter clock it n with
  | some s => (s.next (clock n)).map Prod.fst
  | none => none

/-- `to_instant` from src/zeitschaltuhr.rs.  `dateTime` is the due instant,
`sysNow` the `SystemTime::now()` reading (nanoseconds since the epoch) and
`instNow` the `Instant::now()` reading (nanoseconds on the monotonic
timeline); the result is the returned wake-up instant on that timeline.
`u64::try_from(timestamp).unwrap_or_default()` maps a negative whole-second
timestamp to `0`; `duration_since` yields `Err` exactly when the target system
time is strictly earlier than `sysNow`. -/
def toInstant (dateTime sysNow instNow : Int) : Int :=
  let offsetFromEpoch : Int := max (timestamp dateTime) 0
  let targetSystemTime : Int := durationSeconds offsetFromEpoch
  if sysNow ≤ targetSystemTime then instNow + (targetSystemTime - sysNow) else instNow

/-- Modelled from the spec: `Period::upcoming_relative_owned`, the owning form
of the catch-up accessor called by `TemporalIterator::iter_times` in
src/temporal_iterator.rs.  src/period.rs defines only the borrowing
`upcoming_relative`; spec §6 lists the owning form as the same catch-up-mode
sequence accessor, so it is modelled as producing the same iterator. -/
def Period.upcomingRelativeOwned (p : Period) : PeriodIterator := p.upcomingRelative

/-- `TemporalIterator::iter_times` for `Period` (src/temporal_iterator.rs). -/
def Period.iterTimes (p : Period) : PeriodIterator := p.upcomingRelativeOwned

/-- The loop body of `Zeitschaltuhr::execute_scheduled_task`
(src/zeitschaltuhr.rs): `for time in iterator { sleep_until(..); task.execute() }`,
run for at most `fuel` iterations.  Returns the instants whose task execution
has run, and whether the `for` loop terminated (the iterator returned Rust
`None`) within the given fuel.  A panic inside `next` also stops the loop
without normal completion. -/
def executeScheduledTaskRun (clock : Nat → Int) (it : PeriodIterator) :
    Nat → List Int × Bool
  | 0 => ([], false)
  | fuel + 1 =>
    match it.next (clock 0) with
    | none => ([], false)
    | some (none, _) => ([], true)
    | some (some t, it2) =>
      let rest := executeScheduledTaskRun (fun k => clock (k + 1)) it2 fuel
      (t :: rest.1, rest.2)

/-- `Zeitschaltuhr::add_task` for a `Period` source (src/zeitschaltuhr.rs): it
builds the iterator via `iter_times` and then `block_on`s
`execute_scheduled_task` on it.  The first component is the list of instants
whose tasks were executed *inside* `add_task` within `fuel` loop iterations;
the second is whether `add_task` has returned control by then (it returns only
when the loop completes). -/
def addTaskRun (p : Period) (clock : Nat → Int) (fuel : Nat) : List Int × Bool :=
  executeScheduledTaskRun clock p.iterTimes fuel

/-! ## Helper lemmas: durations and construction -/

lemma nsPerSec_pos : (0 : Int) < nsPerSec := by norm_num [nsPerSec]

lemma durFields_spec (d : Int) :
    nsPerSec * durSecsField d + durNanosField d = d ∧
    0 ≤ durNanosField d ∧ durNanosField d < nsPerSec := by
  refine ⟨Int.ediv_add_emod d nsPerSec, Int.emod_nonneg d (by norm_num [nsPerSec]), ?_⟩
  exact Int.emod_lt_of_pos d nsPerSec_pos

lemma durNumSeconds_nonneg (d : Int) (hd : 0 ≤ d) : 0 ≤ durNumSeconds d := by
  have hsecs : 0 ≤ durSecsField d := Int.ediv_nonneg hd (le_of_lt nsPerSec_pos)
  unfold durNumSeconds
  split <;> omega

lemma negative_check_of_neg (d : Int) (hd : d < 0) :
    durNumSeconds d < 0 ∨ (durNumNanoseconds d).getD 0 < 0 := by
  obtain ⟨heq, h0, h1⟩ := durFields_spec d
  by_cases hs : durNumSeconds d < 0
  · exact Or.inl hs
  · right
    -- num_seconds ≥ 0 with d < 0 forces -nsPerSec < d < 0, which is inside i64 range
    have hrange : -(2 ^ 63) ≤ d ∧ d < 2 ^ 63 := by
      unfold durNumSeconds at hs
      unfold nsPerSec at heq h1
      split at hs <;> omega
    simp only [durNumNanoseconds, hrange, and_self, if_true, Option.getD_some]
    exact hd

lemma nonneg_checks_of_pos (d : Int) (hd : 0 < d) :
    ¬(durNumSeconds d < 0 ∨ (durNumNanoseconds d).getD 0 < 0) := by
  rintro (h | h)
  · exact absurd (durNumSeconds_nonneg d (le_of_lt hd)) (by omega)
  · unfold durNumNanoseconds at h
    split at h
    · simp only [Option.getD_some] at h
      omega
    · simp only [Option.getD_none] at h
      omega

/-- Successful construction characterised: `starting_at` succeeds exactly for
strictly positive durations, preserving both arguments. -/
lemma startingAt_ok_iff (s d : Int) (p : Period) :
    startingAt s d = .ok p ↔ 0 < d ∧ p.start = s ∧ p.duration = d := by
  unfold startingAt startingAtWithTimeProvider
  constructor
  · intro h
    split at h
    · exact absurd h (by simp)
    · split at h
      · exact absurd h (by simp)
      · rename_i hz hneg
        have hd0 : d ≠ 0 := by
          simpa [durIsZero] using hz
        have hdpos : 0 < d := by
          rcases lt_trichotomy d 0 with hlt | he | hgt
          · exact absurd (negative_check_of_neg d hlt) hneg
          · exact absurd he hd0
          · exact hgt
        simp only [Except.ok.injEq] at h
        exact ⟨hdpos, by rw [← h], by rw [← h]⟩
  · rintro ⟨hdpos, hs, hdur⟩
    have hz : ¬(durIsZero d = true) := by simp [durIsZero]; omega
    simp only [hz, if_false, nonneg_checks_of_pos d hdpos, if_false]
    cases p
    simp_all

/-! ## Helper lemmas: the iterator -/

lemma next_pres (it : PeriodIterator) (now : Int) (ov : Option Int) (it2 : PeriodIterator)
    (h : it.next now = some (ov, it2)) :
    it2.period = it.period ∧ it2.strategy = it.strategy := by
  unfold PeriodIterator.next at h
  cases hc : it.current with
  | none => simp [hc] at h; simp [← h.2]
  | some c =>
    simp only [hc] at h
    cases hn : nextTimestamp it.strategy now c it.period.duration with
    | none => simp [hn] at h
    | some nxt => simp [hn] at h; simp [← h.2]

lemma next_yield_inv (it : PeriodIterator) (now : Int) (v : Int) (it2 : PeriodIterator)
    (h : it.next now = some (some v, it2)) :
    it.current = some v ∧
    ∃ nxt, nextTimestamp it.strategy now v it.period.duration = some nxt ∧
      it2 = { it with current := some nxt } := by
  unfold PeriodIterator.next at h
  cases hc : it.current with
  | none => simp [hc] at h
  | some c =>
    simp only [hc] at h
    cases hn : nextTimestamp it.strategy now c it.period.duration with
    | none => simp [hn] at h
    | some nxt =>
      simp only [hn, Option.some.injEq, Prod.mk.injEq] at h
      obtain ⟨hv, hit⟩ := h
      obtain rfl : c = v := by simpa using hv
      exact ⟨rfl, nxt, hn, hit.symm⟩

lemma iterAfter_pres (clock : Nat → Int) (it : PeriodIterator) (n : Nat)
    (s : PeriodIterator) (h : iterAfter clock it n = some s) :
    s.period = it.period ∧ s.strategy = it.strategy := by
  induction n generalizing s with
  | zero => simp only [iterAfter, Option.some.injEq] at h; simp [← h]
  | succ n ih =>
    simp only [iterAfter] at h
    cases hs : iterAfter clock it n with
    | none => simp [hs] at h
    | some s1 =>
      simp only [hs] at h
      cases hn : s1.next (clock n) with
      | none => simp [hn] at h
      | some pr =>
        simp only [hn, Option.some.injEq] at h
        obtain ⟨h1, h2⟩ := next_pres s1 (clock n) pr.1 pr.2 (by rw [hn])
        obtain ⟨h3, h4⟩ := ih s1 hs
        rw [← h]
        exact ⟨h1.trans h3, h2.trans h4⟩

lemma iterAfter_current_isSome (clock : Nat → Int) (it : PeriodIterator) (n : Nat)
    (s : PeriodIterator) (hit : it.current.isSome)
    (h : iterAfter clock it n = some s) : s.current.isSome := by
  induction n generalizing s with
  | zero => simp only [iterAfter, Option.some.injEq] at h; rw [← h]; exact hit
  | succ n ih =>
    simp only [iterAfter] at h
    cases hs : iterAfter clock it n with
    | none => simp [hs] at h
    | some s1 =>
      simp only [hs] at h
      have hs1 : s1.current.isSome := ih s1 hs
      obtain ⟨c, hc⟩ := Option.isSome_iff_exists.mp hs1
      cases hn : s1.next (clock n) with
      | none => simp [hn] at h
      | some pr =>
        simp only [hn, Option.some.injEq] at h
        unfold PeriodIterator.next at hn
        simp only [hc] at hn
        cases hnx : nextTimestamp s1.strategy (clock n) c s1.period.duration with
        | none => simp [hnx] at hn
        | some nxt =>
          simp only [hnx, Option.some.injEq] at hn
          rw [← h, ← hn]
          simp

lemma yieldAt_elim (clock : Nat → Int) (it : PeriodIterator) (n : Nat) (ov : Option Int)
    (h : yieldAt clock it n = some ov) :
    ∃ s s2, iterAfter clock it n = some s ∧ s.next (clock n) = some (ov, s2) ∧
      iterAfter clock it (n + 1) = some s2 := by
  unfold yieldAt at h
  cases hs : iterAfter clock it n with
  | none => simp [hs] at h
  | some s =>
    simp only [hs] at h
    cases hn : s.next (clock n) with
    | none => simp [hn] at h
    | some pr =>
      obtain ⟨o1, s2⟩ := pr
      simp only [hn] at h
      have ho : o1 = ov := by simpa using h
      subst ho
      exact ⟨s, s2, rfl, hn, by simp only [iterAfter, hs, hn]⟩

lemma yieldAt_intro (clock : Nat → Int) (it : PeriodIterator) (n : Nat)
    (s : PeriodIterator) (pr : Option Int × PeriodIterator)
    (hs : iterAfter clock it n = some s) (hn : s.next (clock n) = some pr) :
    yieldAt clock it n = some pr.1 := by
  unfold yieldAt
  simp [hs, hn]

/-! ## Helper lemmas: the fixed strategy -/

lemma fixed_iterAfter (p : Period) (clock : Nat → Int) (n : Nat) :
    iterAfter clock p.upcomingFixed n =
      some { period := p, current := some (p.start + (n : Int) * p.duration),
             strategy := .fixedInterval } := by
  induction n with
  | zero =>
    simp [iterAfter, Period.upcomingFixed, PeriodIterator.newFixed, PeriodIterator.new]
  | succ n ih =>
    simp only [iterAfter, ih, PeriodIterator.next, nextTimestamp, fixedIntervalNextTimestamp]
    have : p.start + (n : Int) * p.duration + p.duration
        = p.start + ((n : Int) + 1) * p.duration := by ring
    simp [this]

lemma fixed_yieldAt (p : Period) (clock : Nat → Int) (n : Nat) :
    yieldAt clock p.upcomingFixed n = some (some (p.start + (n : Int) * p.duration)) := by
  unfold yieldAt
  simp [fixed_iterAfter p clock n, PeriodIterator.next, nextTimestamp]

/-! ## Helper lemmas: the u32 casts and div_ceil -/

lemma u32Cast_zero : u32Cast 0 = 0 := rfl

lemma u32Cast_toNat (v : Int) (h0 : 0 ≤ v) (h1 : v < 2 ^ 32) : u32Cast v = v.toNat :=
  congrArg Int.toNat (Int.emod_eq_of_lt h0 h1)

lemma u32DivCeil_zero_left (b : Nat) : u32DivCeil 0 b = 0 := by
  simp [u32DivCeil]

lemma u32DivCeil_one (a b : Nat) (h0 : 0 < a) (hab : a ≤ b) : u32DivCeil a b = 1 := by
  rcases eq_or_lt_of_le hab with heq | hlt
  · subst heq
    simp [u32DivCeil, Nat.div_self h0, Nat.mod_self]
  · rw [u32DivCeil, Nat.div_eq_of_lt hlt, Nat.mod_eq_of_lt hlt]
    have : a ≠ 0 := by omega
    simp [this]

lemma u32DivCeil_ge_two (a b : Nat) (hb : 0 < b) (h : b < a) : 2 ≤ u32DivCeil a b := by
  unfold u32DivCeil
  by_cases hm : a % b = 0
  · rw [if_pos hm]
    by_contra hcon
    push_neg at hcon
    have hle : a / b ≤ 1 := by omega
    have hmul : b * (a / b) ≤ b * 1 := Nat.mul_le_mul_left b hle
    have := Nat.div_add_mod a b
    omega
  · rw [if_neg hm]
    have h1 : 1 ≤ a / b := (Nat.one_le_div_iff hb).mpr (le_of_lt h)
    omega

/-! ## Helper lemmas: the catch-up (next-available) strategy -/

lemma nextAvailable_formula (now c d : Int) (hne : u32Cast (durNumSeconds d) ≠ 0) :
    nextAvailableNextTimestamp now c d =
      some (c + durationSeconds
        (Int.ofNat (u32DivCeil (u32Cast (max (timestamp now - timestamp c) 0))
          (u32Cast (durNumSeconds d))) * durNumSeconds d)) := by
  unfold nextAvailableNextTimestamp
  simp [hne]

lemma u32Cast_durNumSeconds_ne_zero (d : Int) (h1 : 1 ≤ durNumSeconds d)
    (h2 : durNumSeconds d < 2 ^ 32) : u32Cast (durNumSeconds d) ≠ 0 := by
  rw [u32Cast_toNat (durNumSeconds d) (by omega) h2]
  omega

lemma nextAvailable_behind (now c d : Int) (hne : u32Cast (durNumSeconds d) ≠ 0)
    (h : timestamp now ≤ timestamp c) :
    nextAvailableNextTimestamp now c d = some c := by
  rw [nextAvailable_formula now c d hne]
  have hmax : max (timestamp now - timestamp c) 0 = 0 := max_eq_right (by omega)
  rw [hmax, u32Cast_zero, u32DivCeil_zero_left]
  simp [durationSeconds]

lemma nextAvailable_within (now c d : Int) (h1 : 1 ≤ durNumSeconds d)
    (h2 : durNumSeconds d < 2 ^ 32)
    (hlow : timestamp c < timestamp now)
    (hhigh : timestamp now ≤ timestamp c + durNumSeconds d) :
    nextAvailableNextTimestamp now c d = some (c + durationSeconds (durNumSeconds d)) := by
  rw [nextAvailable_formula now c d (u32Cast_durNumSeconds_ne_zero d h1 h2)]
  have hmax : max (timestamp now - timestamp c) 0 = timestamp now - timestamp c :=
    max_eq_left (by omega)
  rw [hmax, u32Cast_toNat _ (by omega) (by omega), u32Cast_toNat _ (by omega) h2]
  have hceil : u32DivCeil (timestamp now - timestamp c).toNat (durNumSeconds d).toNat = 1 := by
    apply u32DivCeil_one
    · omega
    · omega
  rw [hceil]
  simp

lemma nextAvailable_ahead (now c d : Int) (h1 : 1 ≤ durNumSeconds d)
    (h2 : durNumSeconds d < 2 ^ 32)
    (hlow : timestamp c + durNumSeconds d < timestamp now)
    (hbound : timestamp now - timestamp c < 2 ^ 32) :
    ∃ k : Int, 2 ≤ k ∧
      nextAvailableNextTimestamp now c d = some (c + durationSeconds (k * durNumSeconds d)) := by
  rw [nextAvailable_formula now c d (u32Cast_durNumSeconds_ne_zero d h1 h2)]
  have hmax : max (timestamp now - timestamp c) 0 = timestamp now - timestamp c :=
    max_eq_left (by omega)
  rw [hmax, u32Cast_toNat _ (by omega) hbound, u32Cast_toNat _ (by omega) h2]
  refine ⟨Int.ofNat (u32DivCeil (timestamp now - timestamp c).toNat (durNumSeconds d).toNat),
    ?_, rfl⟩
  have h2le := u32DivCeil_ge_two (timestamp now - timestamp c).toNat (durNumSeconds d).toNat
    (by omega) (by omega)
  exact Int.ofNat_le.mpr h2le

lemma nextTimestamp_mono (strat : IntervalStrategy) (now c d nxt : Int)
    (hd : 0 ≤ d) (hs : 0 ≤ durNumSeconds d)
    (h : nextTimestamp strat now c d = some nxt) : c ≤ nxt := by
  cases strat with
  | fixedInterval =>
    simp only [nextTimestamp, fixedIntervalNextTimestamp, Option.some.injEq] at h
    omega
  | nextAvailableInterval =>
    simp only [nextTimestamp] at h
    by_cases hz : u32Cast (durNumSeconds d) = 0
    · unfold nextAvailableNextTimestamp at h
      simp [hz] at h
    · rw [nextAvailable_formula now c d hz, Option.some.injEq] at h
      have hk : (0 : Int) ≤ Int.ofNat (u32DivCeil
          (u32Cast (max (timestamp now - timestamp c) 0)) (u32Cast (durNumSeconds d))) :=
        Int.ofNat_nonneg _
      have hnn : 0 ≤ durationSeconds (Int.ofNat (u32DivCeil
          (u32Cast (max (timestamp now - timestamp c) 0)) (u32Cast (durNumSeconds d)))
            * durNumSeconds d) := by
        unfold durationSeconds
        exact mul_nonneg (mul_nonneg hk hs) (le_of_lt nsPerSec_pos)
      linarith [hnn, h.ge, h.le]

lemma next_of_some (it : PeriodIterator) (now c nxt : Int) (hc : it.current = some c)
    (hn : nextTimestamp it.strategy now c it.period.duration = some nxt) :
    it.next now = some (some c, { it with current := some nxt }) := by
  unfold PeriodIterator.next
  simp [hc, hn]

lemma rel_yieldAt_zero (p : Period) (clock : Nat → Int)
    (hne : u32Cast (durNumSeconds p.duration) ≠ 0) :
    yieldAt clock p.upcomingRelative 0 = some (some p.start) := by
  have hs : iterAfter clock p.upcomingRelative 0 = some p.upcomingRelative := rfl
  have hn := next_of_some p.upcomingRelative (clock 0) p.start
    (p.start + durationSeconds
      (Int.ofNat (u32DivCeil (u32Cast (max (timestamp (clock 0) - timestamp p.start) 0))
        (u32Cast (durNumSeconds p.duration))) * durNumSeconds p.duration))
    rfl (by
      show nextAvailableNextTimestamp (clock 0) p.start p.duration = _
      exact nextAvailable_formula (clock 0) p.start p.duration hne)
  exact yieldAt_intro clock p.upcomingRelative 0 p.upcomingRelative _ hs hn

lemma rel_yield_succ (p : Period) (clock : Nat → Int) (n : Nat) (v nxt : Int)
    (hne : u32Cast (durNumSeconds p.duration) ≠ 0)
    (hv : yieldAt clock p.upcomingRelative n = some (some v))
    (hnxt : nextAvailableNextTimestamp (clock n) v p.duration = some nxt) :
    yieldAt clock p.upcomingRelative (n + 1) = some (some nxt) := by
  obtain ⟨s, s2, hs, hn, hs2⟩ := yieldAt_elim clock p.upcomingRelative n (some v) hv
  obtain ⟨hsp, hss⟩ := iterAfter_pres clock p.upcomingRelative n s hs
  have hsp2 : s.period = p := hsp
  have hss2 : s.strategy = .nextAvailableInterval := hss
  obtain ⟨hcur, nxt2, hnt, hit2⟩ := next_yield_inv s (clock n) v s2 hn
  rw [hss2, hsp2] at hnt
  have hnt2 : nextAvailableNextTimestamp (clock n) v p.duration = some nxt2 := hnt
  have heq : nxt2 = nxt := by
    rw [hnt2] at hnxt
    simpa using hnxt
  subst heq
  have hs2cur : s2.current = some nxt2 := by rw [hit2]
  have hs2strat : s2.strategy = .nextAvailableInterval := by rw [hit2]; exact hss2
  have hs2per : s2.period = p := by rw [hit2]; exact hsp2
  have hnext2 : nextTimestamp s2.strategy (clock (n + 1)) nxt2 s2.period.duration
      = some (nxt2 + durationSeconds
        (Int.ofNat (u32DivCeil (u32Cast (max (timestamp (clock (n + 1)) - timestamp nxt2) 0))
          (u32Cast (durNumSeconds p.duration))) * durNumSeconds p.duration)) := by
    rw [hs2strat, hs2per]
    exact nextAvailable_formula (clock (n + 1)) nxt2 p.duration hne
  have hn2 := next_of_some s2 (clock (n + 1)) nxt2 _ hs2cur hnext2
  exact yieldAt_intro clock p.upcomingRelative (n + 1) s2 _ hs2 hn2

lemma rel_yield_repeat (p : Period) (clock : Nat → Int) (n : Nat) (v : Int)
    (hne : u32Cast (durNumSeconds p.duration) ≠ 0)
    (hv : yieldAt clock p.upcomingRelative n = some (some v))
    (hbehind : timestamp (clock n) ≤ timestamp v) :
    yieldAt clock p.upcomingRelative (n + 1) = some (some v) :=
  rel_yield_succ p clock n v v hne hv
    (nextAvailable_behind (clock n) v p.duration hne hbehind)

lemma rel_yield_plus (p : Period) (clock : Nat → Int) (n : Nat) (v : Int)
    (h1 : 1 ≤ durNumSeconds p.duration) (h2 : durNumSeconds p.duration < 2 ^ 32)
    (hv : yieldAt clock p.upcomingRelative n = some (some v))
    (hlow : timestamp v < timestamp (clock n))
    (hhigh : timestamp (clock n) ≤ timestamp v + durNumSeconds p.duration) :
    yieldAt clock p.upcomingRelative (n + 1)
      = some (some (v + durationSeconds (durNumSeconds p.duration))) :=
  rel_yield_succ p clock n v _ (u32Cast_durNumSeconds_ne_zero p.duration h1 h2) hv
    (nextAvailable_within (clock n) v p.duration h1 h2 hlow hhigh)

lemma rel_yield_jump (p : Period) (clock : Nat → Int) (n : Nat) (v : Int)
    (h1 : 1 ≤ durNumSeconds p.duration) (h2 : durNumSeconds p.duration < 2 ^ 32)
    (hv : yieldAt clock p.upcomingRelative n = some (some v))
    (hlow : timestamp v + durNumSeconds p.duration < timestamp (clock n))
    (hbound : timestamp (clock n) - timestamp v < 2 ^ 32) :
    ∃ w, yieldAt clock p.upcomingRelative (n + 1) = some (some w) ∧
      v + durationSeconds (2 * durNumSeconds p.duration) ≤ w := by
  obtain ⟨k, hk2, hk⟩ :=
    nextAvailable_ahead (clock n) v p.duration h1 h2 hlow hbound
  refine ⟨v + durationSeconds (k * durNumSeconds p.duration),
    rel_yield_succ p clock n v _ (u32Cast_durNumSeconds_ne_zero p.duration h1 h2) hv hk, ?_⟩
  have hmul : 2 * durNumSeconds p.duration * nsPerSec ≤ k * durNumSeconds p.duration * nsPerSec := by
    have hd0 : 0 ≤ durNumSeconds p.duration := by omega
    have := mul_le_mul_of_nonneg_right (mul_le_mul_of_nonneg_right hk2 hd0)
      (le_of_lt nsPerSec_pos)
    exact this
  unfold durationSeconds
  omega

/-! ## Claim theorems -/

/-- C1: for every Period constructed by `starting_at` with start `s` and
duration `d > 0`, the fixed-mode sequence yields `s` as its very first value
and its n-th value equals `s + n·d` exactly for all n ≥ 0, and the elapsed
real (absolute) time between consecutive yielded instants is always exactly
`d`.  Instants are absolute, so this holds in particular when the span
crosses a daylight-saving transition, which only changes the local calendar
rendering, never the instant arithmetic. -/
theorem fixed_sequence_exact (s d : Int) (p : Period) (clock : Nat → Int) (n : Nat)
    (hok : startingAt s d = .ok p) (_hd : 0 < d) :
    yieldAt clock p.upcomingFixed n = some (some (s + (n : Int) * d)) ∧
    (∀ a b : Int, yieldAt clock p.upcomingFixed n = some (some a) →
      yieldAt clock p.upcomingFixed (n + 1) = some (some b) → b - a = d) := by
  obtain ⟨hd2, hstart, hdur⟩ := (startingAt_ok_iff s d p).mp hok
  constructor
  · rw [fixed_yieldAt, hstart, hdur]
  · intro a b ha hb
    rw [fixed_yieldAt p clock n] at ha
    rw [fixed_yieldAt p clock (n + 1)] at hb
    have ha2 : p.start + (n : Int) * p.duration = a := by simpa using ha
    have hb2 : p.start + ((n : Int) + 1) * p.duration = b := by
      push_cast at hb
      simpa using hb
    rw [← ha2, ← hb2, ← hdur]
    ring

/-- C1 witness: concrete instantiation at start 0, duration 1 s, n = 2. -/
theorem fixed_sequence_exact_witness :
    startingAt 0 nsPerSec = .ok (Period.mk 0 nsPerSec) ∧
    yieldAt (fun _ => 0) (Period.mk 0 nsPerSec).upcomingFixed 2
      = some (some (0 + ((2 : Nat) : Int) * nsPerSec)) :=
  ⟨rfl, (fixed_sequence_exact 0 nsPerSec (Period.mk 0 nsPerSec) (fun _ => 0) 2 rfl
    (by norm_num [nsPerSec])).1⟩

/-- C3: `starting_at` returns `ZeroDurationError` when d = 0,
`NegativeDurationError` when d < 0 (including negative sub-second durations),
and for every d > 0 succeeds with a Period whose start and duration equal the
arguments unchanged. -/
theorem startingAt_error_taxonomy (s d : Int) :
    (d = 0 → startingAt s d = .error .zeroDurationError) ∧
    (d < 0 → startingAt s d = .error .negativeDurationError) ∧
    (0 < d → startingAt s d = .ok (Period.mk s d)) := by
  refine ⟨?_, ?_, ?_⟩
  · intro h
    subst h
    rfl
  · intro h
    unfold startingAt startingAtWithTimeProvider
    have hz : ¬(durIsZero d = true) := by
      simp only [durIsZero, beq_iff_eq]
      omega
    rw [if_neg hz, if_pos (negative_check_of_neg d h)]
  · intro h
    exact (startingAt_ok_iff s d (Period.mk s d)).mpr ⟨h, rfl, rfl⟩

/-- C3 witness: zero duration, −500 ms, and +7 min at start 0. -/
theorem startingAt_error_taxonomy_witness :
    startingAt 0 0 = .error .zeroDurationError ∧
    startingAt 0 (-(5 * 10 ^ 8)) = .error .negativeDurationError ∧
    startingAt 0 (durationSeconds 420) = .ok (Period.mk 0 (durationSeconds 420)) :=
  ⟨(startingAt_error_taxonomy 0 0).1 rfl,
   (startingAt_error_taxonomy 0 (-(5 * 10 ^ 8))).2.1 (by norm_num),
   (startingAt_error_taxonomy 0 (durationSeconds 420)).2.2
     (by norm_num [durationSeconds, nsPerSec])⟩

/-- C5 (code-bug evidence): `starting_at` accepts the strictly positive
sub-second duration 500 ms (5·10^8 ns), yet already the first call to `next`
on the catch-up sequence fails at runtime: `duration.num_seconds() as u32` is
0 and `u32::div_ceil` divides by zero (a panic, modelled as `none`) — the
division by the duration's whole-second count is NOT failure-free for every
accepted Period. -/
theorem catchup_subsecond_duration_panics :
    startingAt (1577836800 * nsPerSec) (5 * 10 ^ 8)
      = .ok (Period.mk (1577836800 * nsPerSec) (5 * 10 ^ 8)) ∧
    (Period.mk (1577836800 * nsPerSec) (5 * 10 ^ 8)).upcomingRelative.next
      (1577836800 * nsPerSec) = none ∧
    yieldAt (fun _ => 1577836800 * nsPerSec)
      (Period.mk (1577836800 * nsPerSec) (5 * 10 ^ 8)).upcomingRelative 0 = none :=
  ⟨rfl, rfl, rfl⟩

/-- C9: for every Period, the fixed sequence always yields a value (never the
Rust `None`), the catch-up sequence never returns the Rust `None` either (a
returned value is always `some`), obtaining a sequence does not mutate the
Period (the iterator holds the Period's fields unchanged), and every
re-derivation restarts with a fresh cursor at `start` under the chosen
strategy. -/
theorem period_sequences_unbounded_immutable_restart (p : Period) :
    (∀ clock : Nat → Int, ∀ n : Nat,
      yieldAt clock p.upcomingFixed n = some (some (p.start + (n : Int) * p.duration))) ∧
    (∀ clock : Nat → Int, ∀ n : Nat, ∀ ov : Option Int,
      yieldAt clock p.upcomingRelative n = some ov → ∃ v, ov = some v) ∧
    (p.upcomingFixed.period = p ∧ p.upcomingRelative.period = p) ∧
    (p.upcomingFixed.current = some p.start ∧ p.upcomingRelative.current = some p.start) := by
  refine ⟨fun clock n => fixed_yieldAt p clock n, ?_, ⟨rfl, rfl⟩, ⟨rfl, rfl⟩⟩
  intro clock n ov h
  obtain ⟨s, s2, hs, hn, _⟩ := yieldAt_elim clock p.upcomingRelative n ov h
  have hsome : s.current.isSome :=
    iterAfter_current_isSome clock p.upcomingRelative n s rfl hs
  obtain ⟨c, hc⟩ := Option.isSome_iff_exists.mp hsome
  unfold PeriodIterator.next at hn
  simp only [hc] at hn
  cases hnx : nextTimestamp s.strategy (clock n) c s.period.duration with
  | none => rw [hnx] at hn; simp at hn
  | some nxt =>
    rw [hnx] at hn
    simp only [Option.some.injEq, Prod.mk.injEq] at hn
    exact ⟨c, hn.1.symm⟩

/-- C9 witness: concrete instantiation at start 0, duration 1 s. -/
theorem period_sequences_unbounded_immutable_restart_witness :
    yieldAt (fun _ => 0) (Period.mk 0 nsPerSec).upcomingFixed 0
      = some (some ((0 : Int) + ((0 : Nat) : Int) * nsPerSec)) ∧
    (∃ v, (some (0 : Int) : Option Int) = some v) :=
  ⟨(period_sequences_unbounded_immutable_restart (Period.mk 0 nsPerSec)).1 (fun _ => 0) 0,
   (period_sequences_unbounded_immutable_restart (Period.mk 0 nsPerSec)).2.1
     (fun _ => 0) 0 (some 0) (by decide)⟩

/-- C2 counterexample: with the fixed test clock at 2020-02-01T00:00:00 (POSIX
second 1580515200), start 2020-01-01T00:00:00 (1577836800) and duration 7 min,
the first value yielded by the catch-up sequence is `start` itself — the
iterator returns the stored cursor before applying the strategy — and not the
aligned instant 2020-02-01T00:06:00 (1580515560) asserted by the claim. -/
theorem catchup_first_value_counterexample :
    startingAt (1577836800 * nsPerSec) (durationSeconds 420)
      = .ok (Period.mk (1577836800 * nsPerSec) (durationSeconds 420)) ∧
    yieldAt (fun _ => 1580515200 * nsPerSec)
      (Period.mk (1577836800 * nsPerSec) (durationSeconds 420)).upcomingRelative 0
      = some (some (1577836800 * nsPerSec)) ∧
    (1577836800 : Int) * nsPerSec ≠ 1580515560 * nsPerSec :=
  ⟨rfl, by decide, by decide⟩

/-- C2 amended: the first value yielded by the catch-up sequence is always
`start` unchanged (for every clock); the forward alignment against the clock
reading appears in the SECOND yielded value — in the cited test configuration
(clock fixed at 2020-02-01T00:00:00, start 2020-01-01T00:00:00, duration
7 min) the second yielded value is 2020-02-01T00:06:00. -/
theorem catchup_first_is_start_alignment_is_second (s d : Int) (p : Period)
    (clock : Nat → Int)
    (hok : startingAt s d = .ok p)
    (h1 : 1 ≤ durNumSeconds d) (h2 : durNumSeconds d < 2 ^ 32) :
    yieldAt clock p.upcomingRelative 0 = some (some s) ∧
    yieldAt (fun _ => 1580515200 * nsPerSec)
      (Period.mk (1577836800 * nsPerSec) (durationSeconds 420)).upcomingRelative 1
      = some (some (1580515560 * nsPerSec)) := by
  obtain ⟨hd, hstart, hdur⟩ := (startingAt_ok_iff s d p).mp hok
  constructor
  · rw [← hstart]
    exact rel_yieldAt_zero p clock
      (by rw [hdur]; exact u32Cast_durNumSeconds_ne_zero d h1 h2)
  · decide

/-- C2 witness: concrete instantiation at start 0, duration 1 s. -/
theorem catchup_first_is_start_witness :
    startingAt 0 nsPerSec = .ok (Period.mk 0 nsPerSec) ∧
    yieldAt (fun _ => 0) (Period.mk 0 nsPerSec).upcomingRelative 0 = some (some 0) :=
  ⟨rfl, (catchup_first_is_start_alignment_is_second 0 nsPerSec (Period.mk 0 nsPerSec)
    (fun _ => 0) rfl (by decide) (by decide)).1⟩

/-- C10 counterexample: a Period whose start is strictly later than the fixed
clock reading but whose duration is sub-second (500 ms) does not yield `start`
on the first call — that call panics on the zero whole-second divisor — so the
repetition behaviour does not hold for EVERY Period with a future start. -/
theorem catchup_future_start_counterexample :
    startingAt (2000000 * nsPerSec) (5 * 10 ^ 8)
      = .ok (Period.mk (2000000 * nsPerSec) (5 * 10 ^ 8)) ∧
    (1000000 : Int) * nsPerSec < 2000000 * nsPerSec ∧
    yieldAt (fun _ => 1000000 * nsPerSec)
      (Period.mk (2000000 * nsPerSec) (5 * 10 ^ 8)).upcomingRelative 0
      ≠ some (some (2000000 * nsPerSec)) :=
  ⟨rfl, by decide, by decide⟩

/-- C10 amended: for every Period with a whole-second-positive duration (at
least 1 s and below the u32 cap) whose start is strictly later than the fixed
clock reading, the catch-up sequence yields the same instant `start` on both
the first and the second call to `next`: the alignment computation leaves a
not-yet-due cursor unchanged (k = 0). -/
theorem catchup_future_start_repeats (s d now : Int) (p : Period)
    (hok : startingAt s d = .ok p)
    (h1 : 1 ≤ durNumSeconds d) (h2 : durNumSeconds d < 2 ^ 32)
    (hfut : now < s) :
    yieldAt (fun _ => now) p.upcomingRelative 0 = some (some s) ∧
    yieldAt (fun _ => now) p.upcomingRelative 1 = some (some s) := by
  obtain ⟨hd, hstart, hdur⟩ := (startingAt_ok_iff s d p).mp hok
  have hne : u32Cast (durNumSeconds p.duration) ≠ 0 := by
    rw [hdur]
    exact u32Cast_durNumSeconds_ne_zero d h1 h2
  have h0 : yieldAt (fun _ => now) p.upcomingRelative 0 = some (some s) := by
    rw [← hstart]
    exact rel_yieldAt_zero p (fun _ => now) hne
  refine ⟨h0, ?_⟩
  have hts : timestamp now ≤ timestamp s := Int.ediv_le_ediv nsPerSec_pos (le_of_lt hfut)
  exact rel_yield_repeat p (fun _ => now) 0 s hne h0 hts

/-- C10 witness: start 100 s, duration 1 s, clock fixed at 0. -/
theorem catchup_future_start_repeats_witness :
    startingAt (100 * nsPerSec) nsPerSec = .ok (Period.mk (100 * nsPerSec) nsPerSec) ∧
    yieldAt (fun _ => 0) (Period.mk (100 * nsPerSec) nsPerSec).upcomingRelative 0
      = some (some (100 * nsPerSec)) ∧
    yieldAt (fun _ => 0) (Period.mk (100 * nsPerSec) nsPerSec).upcomingRelative 1
      = some (some (100 * nsPerSec)) :=
  ⟨rfl,
   (catchup_future_start_repeats (100 * nsPerSec) nsPerSec 0 (Period.mk (100 * nsPerSec) nsPerSec)
     rfl (by decide) (by decide) (by decide)).1,
   (catchup_future_start_repeats (100 * nsPerSec) nsPerSec 0 (Period.mk (100 * nsPerSec) nsPerSec)
     rfl (by decide) (by decide) (by decide)).2⟩

/-- C4 counterexample: with start 0 and duration 10 s under the constant clock
0, the second yielded value of the catch-up sequence equals the first one
(both are 0), not `previous + duration`; moreover two clock behaviours that
agree at sequence-creation time (both read 0 at the first call) produce
different sequences once one of them drifts ahead: under the constant clock
the third yield is still 0, while under the drifting clock it is 100 s — the
clock is re-consulted after the first value. -/
theorem catchup_subsequent_values_counterexample :
    startingAt 0 (durationSeconds 10) = .ok (Period.mk 0 (durationSeconds 10)) ∧
    yieldAt (fun _ => 0) (Period.mk 0 (durationSeconds 10)).upcomingRelative 0
      = some (some 0) ∧
    yieldAt (fun _ => 0) (Period.mk 0 (durationSeconds 10)).upcomingRelative 1
      = some (some 0) ∧
    (0 : Int) ≠ 0 + durationSeconds 10 ∧
    (fun k => if k = 0 then (0 : Int) else 95 * nsPerSec) 0 = (fun _ => (0 : Int)) 0 ∧
    yieldAt (fun _ => (0 : Int)) (Period.mk 0 (durationSeconds 10)).upcomingRelative 2
      = some (some 0) ∧
    yieldAt (fun k => if k = 0 then (0 : Int) else 95 * nsPerSec)
      (Period.mk 0 (durationSeconds 10)).upcomingRelative 2
      = some (some (100 * nsPerSec)) :=
  ⟨rfl, by decide, by decide, by decide, rfl, by decide, by decide⟩

/-- C4 amended: the catch-up strategy consults the clock on EVERY call to
`next`, not only at the first value: when the n-th yielded value is `v`, the
(n+1)-th yielded value is `v + ceil(max(now_ts − v_ts, 0) / dsecs)·dsecs`
seconds, where `now` is the clock reading at that very call and `dsecs` the
duration's whole-second count.  Hence: a clock at or behind `v` repeats `v`; a
clock within one step ahead gives `v + dsecs` seconds (plain addition holds
only in this band); a clock more than one step ahead (within the u32 range)
makes the sequence re-align by at least two steps — so sequences under clocks
that agree at creation diverge once one clock runs ahead. -/
theorem catchup_clock_consulted_each_step (s d : Int) (p : Period) (clock : Nat → Int)
    (n : Nat) (v : Int)
    (hok : startingAt s d = .ok p)
    (h1 : 1 ≤ durNumSeconds d) (h2 : durNumSeconds d < 2 ^ 32)
    (hv : yieldAt clock p.upcomingRelative n = some (some v)) :
    (timestamp (clock n) ≤ timestamp v →
      yieldAt clock p.upcomingRelative (n + 1) = some (some v)) ∧
    (timestamp v < timestamp (clock n) →
      timestamp (clock n) ≤ timestamp v + durNumSeconds d →
      yieldAt clock p.upcomingRelative (n + 1)
        = some (some (v + durationSeconds (durNumSeconds d)))) ∧
    (timestamp v + durNumSeconds d < timestamp (clock n) →
      timestamp (clock n) - timestamp v < 2 ^ 32 →
      ∃ w, yieldAt clock p.upcomingRelative (n + 1) = some (some w) ∧
        v + durationSeconds (2 * durNumSeconds d) ≤ w) := by
  obtain ⟨hd, hstart, hdur⟩ := (startingAt_ok_iff s d p).mp hok
  subst hdur
  have hne : u32Cast (durNumSeconds p.duration) ≠ 0 :=
    u32Cast_durNumSeconds_ne_zero p.duration h1 h2
  refine ⟨fun hb => rel_yield_repeat p clock n v hne hv hb,
    fun hl hh => rel_yield_plus p clock n v h1 h2 hv hl hh,
    fun hl hb => rel_yield_jump p clock n v h1 h2 hv hl hb⟩

/-- C4 witness: start 0, duration 60 s, constant clock 0, step from the first
yield (the clock is at the yielded value, so the value repeats). -/
theorem catchup_clock_consulted_witness :
    startingAt 0 (durationSeconds 60) = .ok (Period.mk 0 (durationSeconds 60)) ∧
    yieldAt (fun _ => 0) (Period.mk 0 (durationSeconds 60)).upcomingRelative 1
      = some (some 0) :=
  ⟨rfl, (catchup_clock_consulted_each_step 0 (durationSeconds 60)
    (Period.mk 0 (durationSeconds 60)) (fun _ => 0) 0 0 rfl (by decide) (by decide)
    (by decide)).1 (by decide)⟩

/-- C8: for every constructed Period, either strategy and every clock
behaviour, the instants yielded by one cursor are non-decreasing: whenever the
n-th and (n+1)-th calls both yield values, the later one is ≥ the earlier. -/
theorem yielded_instants_nondecreasing (s d : Int) (p : Period) (it0 : PeriodIterator)
    (clock : Nat → Int) (n : Nat) (a b : Int)
    (hok : startingAt s d = .ok p)
    (hit : it0 = p.upcomingFixed ∨ it0 = p.upcomingRelative)
    (ha : yieldAt clock it0 n = some (some a))
    (hb : yieldAt clock it0 (n + 1) = some (some b)) : a ≤ b := by
  obtain ⟨hd, hstart, hdur⟩ := (startingAt_ok_iff s d p).mp hok
  have hd0 : 0 ≤ p.duration := by omega
  have hs0 : 0 ≤ durNumSeconds p.duration := durNumSeconds_nonneg p.duration hd0
  obtain ⟨sn, s2, hsn, hnext, hs2⟩ := yieldAt_elim clock it0 n (some a) ha
  obtain ⟨hcur, nxt, hnt, hit2⟩ := next_yield_inv sn (clock n) a s2 hnext
  obtain ⟨hper, _⟩ := iterAfter_pres clock it0 n sn hsn
  have hperiod : sn.period = p := by
    rcases hit with h | h <;> rw [h] at hper <;> exact hper
  rw [hperiod] at hnt
  have hmono : a ≤ nxt :=
    nextTimestamp_mono sn.strategy (clock n) a p.duration nxt hd0 hs0 hnt
  obtain ⟨s3, s4, hs3, hnext2, _⟩ := yieldAt_elim clock it0 (n + 1) (some b) hb
  have hs3eq : s3 = s2 := by
    rw [hs2] at hs3
    simpa using hs3.symm
  subst hs3eq
  obtain ⟨hcur2, _, _, _⟩ := next_yield_inv s3 (clock (n + 1)) b s4 hnext2
  rw [hit2] at hcur2
  simp only [Option.some.injEq] at hcur2
  omega

/-- C8 witness: fixed strategy, start 0, duration 1 s, indices 0 and 1. -/
theorem yielded_instants_nondecreasing_witness : (0 : Int) ≤ nsPerSec :=
  yielded_instants_nondecreasing 0 nsPerSec (Period.mk 0 nsPerSec)
    (Period.mk 0 nsPerSec).upcomingFixed (fun _ => 0) 0 0 nsPerSec rfl (Or.inl rfl)
    (by decide) (by decide)

/-- C6 counterexample: a due instant half a second after the clock reading
produces a wait of zero — `to_instant` truncates the due instant to whole
POSIX seconds before comparing, so the wake-up instant is the current instant
rather than the current instant plus exactly `due − now`. -/
theorem scheduler_wait_counterexample :
    (1580515200 : Int) * nsPerSec < 1580515200 * nsPerSec + 5 * 10 ^ 8 ∧
    toInstant (1580515200 * nsPerSec + 5 * 10 ^ 8) (1580515200 * nsPerSec) 0 = 0 ∧
    (0 : Int) ≠ 0 + ((1580515200 * nsPerSec + 5 * 10 ^ 8) - 1580515200 * nsPerSec) := by
  refine ⟨by decide, by decide, by decide⟩

/-- C6 amended: the wake-up instant computed by `to_instant` is
`now_instant + max(0, whole_seconds(due)·1s − now_system)`, i.e. the claim's
`max(0, due − now)` formula holds after truncating the due instant to whole
POSIX seconds (negative timestamps additionally clamp to the epoch): for a
whole-second, post-epoch due instant the wake-up instant is exactly
`now_instant + max(0, due − now_system)`, and any due instant at or before a
post-epoch clock reading is executed immediately (wake-up = current
instant). -/
theorem scheduler_wait_formula (dt sysNow instNow : Int) :
    toInstant dt sysNow instNow
      = instNow + max 0 (durationSeconds (max (timestamp dt) 0) - sysNow) ∧
    (dt = durationSeconds (timestamp dt) → 0 ≤ dt →
      toInstant dt sysNow instNow = instNow + max 0 (dt - sysNow)) ∧
    (0 ≤ sysNow → dt ≤ sysNow → toInstant dt sysNow instNow = instNow) := by
  refine ⟨?_, ?_, ?_⟩
  · unfold toInstant durationSeconds timestamp nsPerSec
    dsimp only
    split <;> omega
  · intro h hnn
    unfold durationSeconds timestamp nsPerSec at h
    unfold toInstant durationSeconds timestamp nsPerSec
    dsimp only
    split <;> omega
  · intro h0 hle
    have key : 1000000000 * Int.ediv dt 1000000000 + Int.emod dt 1000000000 = dt :=
      Int.ediv_add_emod dt (1000000000 : Int)
    have k0 : 0 ≤ Int.emod dt (1000000000 : Int) := Int.emod_nonneg dt (by norm_num)
    have k1 : Int.emod dt (1000000000 : Int) < 1000000000 := Int.emod_lt_of_pos dt (by norm_num)
    unfold toInstant durationSeconds timestamp nsPerSec
    dsimp only
    split <;> omega

/-- C6 witness: a whole-second future due instant waits exactly its distance;
a past due instant is executed immediately. -/
theorem scheduler_wait_formula_witness :
    toInstant (60 * nsPerSec) 0 5 = 5 + max 0 (60 * nsPerSec - 0) ∧
    toInstant 0 (30 * nsPerSec) 5 = 5 :=
  ⟨(scheduler_wait_formula (60 * nsPerSec) 0 5).2.1 (by decide) (by decide),
   (scheduler_wait_formula 0 (30 * nsPerSec) 5).2.2 (by decide) (by decide)⟩

lemma execLoop_rel_run (d : Int) (h1 : 1 ≤ durNumSeconds d) (h2 : durNumSeconds d < 2 ^ 32) :
    ∀ (fuel : Nat) (clock : Nat → Int) (it : PeriodIterator),
      it.period.duration = d → it.strategy = .nextAvailableInterval →
      it.current.isSome →
      (executeScheduledTaskRun clock it fuel).2 = false ∧
      (executeScheduledTaskRun clock it fuel).1.length = fuel := by
  intro fuel
  induction fuel with
  | zero =>
    intro clock it _ _ _
    exact ⟨rfl, rfl⟩
  | succ m ih =>
    intro clock it hdur hstrat hsome
    obtain ⟨c, hc⟩ := Option.isSome_iff_exists.mp hsome
    have hne : u32Cast (durNumSeconds it.period.duration) ≠ 0 := by
      rw [hdur]
      exact u32Cast_durNumSeconds_ne_zero d h1 h2
    have hnt : nextTimestamp it.strategy (clock 0) c it.period.duration
        = some (c + durationSeconds
          (Int.ofNat (u32DivCeil (u32Cast (max (timestamp (clock 0) - timestamp c) 0))
            (u32Cast (durNumSeconds it.period.duration)))
              * durNumSeconds it.period.duration)) := by
      rw [hstrat]
      exact nextAvailable_formula (clock 0) c it.period.duration hne
    have hnext := next_of_some it (clock 0) c _ hc hnt
    unfold executeScheduledTaskRun
    rw [hnext]
    have ihres := ih (fun k => clock (k + 1))
      { it with current := some (c + durationSeconds
          (Int.ofNat (u32DivCeil (u32Cast (max (timestamp (clock 0) - timestamp c) 0))
            (u32Cast (durNumSeconds it.period.duration)))
              * durNumSeconds it.period.duration)) }
      hdur hstrat rfl
    exact ⟨ihres.1, by simpa using ihres.2⟩

/-- C7 counterexample: registering a Period source (start 2020-01-01T00:00:00,
duration 60 s) with the scheduler executes the entry's task inside `add_task`
itself — already the first loop iteration of the `block_on`-driven
`execute_scheduled_task` runs the task at the first yielded instant — and
control has not returned to the caller at that point, refuting "add_task
terminates without itself executing the entry's tasks". -/
theorem add_task_executes_inline_counterexample :
    startingAt (1577836800 * nsPerSec) (durationSeconds 60)
      = .ok (Period.mk (1577836800 * nsPerSec) (durationSeconds 60)) ∧
    (addTaskRun (Period.mk (1577836800 * nsPerSec) (durationSeconds 60))
      (fun _ => 1577836800 * nsPerSec) 1).1 = [1577836800 * nsPerSec] ∧
    (addTaskRun (Period.mk (1577836800 * nsPerSec) (durationSeconds 60))
      (fun _ => 1577836800 * nsPerSec) 1).2 = false :=
  ⟨rfl, by decide, by decide⟩

/-- C7 amended: `add_task` synchronously drives the entry's execution path on a
freshly created runtime, blocking the caller: for a Period-derived source
(whole-second-positive duration) it executes exactly one task per loop
iteration itself, and the loop never completes within any finite fuel — the
unbounded source means `add_task` never returns control to the caller. -/
theorem add_task_blocks_and_executes (s d : Int) (p : Period) (clock : Nat → Int)
    (fuel : Nat) (hok : startingAt s d = .ok p)
    (h1 : 1 ≤ durNumSeconds d) (h2 : durNumSeconds d < 2 ^ 32) :
    (addTaskRun p clock fuel).2 = false ∧
    (addTaskRun p clock fuel).1.length = fuel := by
  obtain ⟨hd, hstart, hdur⟩ := (startingAt_ok_iff s d p).mp hok
  exact execLoop_rel_run d h1 h2 fuel clock p.iterTimes hdur rfl rfl

/-- C7 witness: start 0, duration 1 s, three loop iterations. -/
theorem add_task_blocks_and_executes_witness :
    (addTaskRun (Period.mk 0 nsPerSec) (fun _ => 0) 3).2 = false ∧
    (addTaskRun (Period.mk 0 nsPerSec) (fun _ => 0) 3).1.length = 3 :=
  add_task_blocks_and_executes 0 nsPerSec (Period.mk 0 nsPerSec) (fun _ => 0) 3 rfl
    (by decide) (by decide)
